import Mathlib

/-!
Verification development for the attendance reconciliation engine of
`src/Streamlit.py`.

The Python source is embedded shallowly:

* positioned PDF word tokens become a `Token` structure with a rational
  vertical position (`group_words_to_rows`, lines 49-61);
* a document is modelled at the level of its extracted table
  (`List (List String)`), since `extract_table_from_pdf` only wraps the
  external pdfplumber collaborator around `group_words_to_rows`;
* `process_pdf` (lines 70-80) becomes `process_pdf` over extracted tables,
  returning `Except Unit` because `datetime.strptime` raises on an
  unparsable time string;
* `extract_date_from_filename` (lines 82-91) returns `Except Unit (Option PyDate)`:
  the `rsplit` unpack raises when the filename has no `'.'`, otherwise the
  function returns a date or `None`;
* the weekly merge (lines 174-239) becomes `mergeWeek`: seeding from an
  optional existing Excel table, per-document update loop, and the
  `always_include` roster fill, over an insertion-ordered association list
  mirroring Python dict semantics;
* the per-week batch loop (lines 170-255) becomes `processBatch`, which keeps
  the tables rendered before an exception and records whether the script run
  completed (a raised exception aborts the whole Streamlit run).
-/

/-- The five recognized weekday codes, source line 12: `days = ['Mon', ...]`. -/
def days : List String := ["Mon", "Tue", "Wed", "Thu", "Fri"]

/-- A weekday, used to index the per-person status map. -/
inductive Day where
  | mon | tue | wed | thu | fri
deriving DecidableEq

/-- Decodes a weekday string; `some` exactly when `day_str in days` holds in
the source, in which case it is the key used to index the inner dict. -/
def dayOfString (s : String) : Option Day :=
  if s = "Mon" then some .mon
  else if s = "Tue" then some .tue
  else if s = "Wed" then some .wed
  else if s = "Thu" then some .thu
  else if s = "Fri" then some .fri
  else none

/-- The inner per-person dict `{day: status for day in days}`: one status
string per weekday.  (The source's dicts always carry these five keys, created
by the `defaultdict` factory; statuses are plain strings.) -/
structure DayMap where
  mon : String
  tue : String
  wed : String
  thu : String
  fri : String
deriving DecidableEq

/-- `{day: 'A' for day in days}` — the defaultdict factory value. -/
def defaultDayMap : DayMap := ⟨"A", "A", "A", "A", "A"⟩

/-- `m[day] = v` on the inner dict. -/
def DayMap.set (m : DayMap) (d : Day) (v : String) : DayMap :=
  match d with
  | .mon => ⟨v, m.tue, m.wed, m.thu, m.fri⟩
  | .tue => ⟨m.mon, v, m.wed, m.thu, m.fri⟩
  | .wed => ⟨m.mon, m.tue, v, m.thu, m.fri⟩
  | .thu => ⟨m.mon, m.tue, m.wed, v, m.fri⟩
  | .fri => ⟨m.mon, m.tue, m.wed, m.thu, v⟩

/-- `m[day]` on the inner dict. -/
def DayMap.get (m : DayMap) (d : Day) : String :=
  match d with
  | .mon => m.mon
  | .tue => m.tue
  | .wed => m.wed
  | .thu => m.thu
  | .fri => m.fri

/-- `(surname, first_name)` — exact-string person identity. -/
abbrev PersonKey := String × String

/-- The working table `all_attendance`: a Python dict from `PersonKey` to an
inner day dict, modelled as an insertion-ordered association list (Python
dicts preserve insertion order, and `rows` is built by iterating `.items()`). -/
abbrev Table := List (PersonKey × DayMap)

/-- Keys of an association list, in insertion order. -/
def keysOf {α : Type} (t : List (PersonKey × α)) : List PersonKey :=
  t.map Prod.fst

/-- Dict lookup `t[k]` (as `some`) / `k in t` (as `isSome`). -/
def alookup {α : Type} : List (PersonKey × α) → PersonKey → Option α
  | [], _ => none
  | (k', v) :: rest, k => if k' = k then some v else alookup rest k

/-- Dict assignment `t[k] = v`: overwrites in place if `k` is present
(Python keeps the key's original position), otherwise appends at the end. -/
def assocSet {α : Type} : List (PersonKey × α) → PersonKey → α → List (PersonKey × α)
  | [], k, v => [(k, v)]
  | (k', v') :: rest, k, v =>
    if k' = k then (k', v) :: rest else (k', v') :: assocSet rest k v

/-- `all_attendance[k][d] = v` under `defaultdict`: accessing a missing key
first creates a fresh `{all days = A}` entry at the end of the dict, then the
day is assigned. -/
def setDay : Table → PersonKey → Day → String → Table
  | [], k, d, v => [(k, defaultDayMap.set d v)]
  | (k', m) :: rest, k, d, v =>
    if k' = k then (k', m.set d v) :: rest else (k', m) :: setDay rest k d v

/-- `if k not in all_attendance: all_attendance[k] = {day: 'A' for day in days}`. -/
def ensureKey (t : Table) (k : PersonKey) : Table :=
  if (alookup t k).isSome then t else t ++ [(k, defaultDayMap)]

/-! ### Character-level string helpers (Python `str.split` / `int` / `rstrip`) -/

/-- Python `str.split(sep)` with an explicit one-character separator:
splits at every occurrence, keeping empty pieces. -/
def splitOnChar (sep : Char) : List Char → List (List Char)
  | [] => [[]]
  | c :: cs =>
    match splitOnChar sep cs with
    | [] => [[]]
    | g :: gs => if c = sep then [] :: g :: gs else (c :: g) :: gs

/-- Numeric value of a nonempty digit string. -/
def digitsVal (l : List Char) : Nat :=
  l.foldl (fun acc c => 10 * acc + (c.toNat - ('0').toNat)) 0

/-- Python `int(s)` on the strings this program feeds it: an optional sign
followed by a nonempty run of digits.  (Python's `int` additionally tolerates
surrounding whitespace and digit-group underscores; no input considered here
uses those.) -/
def pyInt (l : List Char) : Option Int :=
  match l with
  | '-' :: rest =>
    if rest ≠ [] ∧ rest.all Char.isDigit then some (-(digitsVal rest : Int)) else none
  | '+' :: rest =>
    if rest ≠ [] ∧ rest.all Char.isDigit then some ((digitsVal rest : Int)) else none
  | _ => if l ≠ [] ∧ l.all Char.isDigit then some ((digitsVal l : Int)) else none

/-- Python `s.rstrip(',')`: removes every trailing comma. -/
def pyRstripComma (s : String) : String :=
  ⟨(s.data.reverse.dropWhile (fun c => c = ',')).reverse⟩

/-! ### Attendance Classifier (`process_pdf`, lines 70-80) -/

/-- `datetime.strptime(s, "%H:%M:%S").time()` as seconds after midnight:
exactly three colon-separated fields, each one or two digits, with
hour ≤ 23, minute ≤ 59, second ≤ 59 (a 60/61 leap-second field would be
rejected by the `time` constructor, so it is equally unparsable). -/
def parseTime (s : String) : Option Nat :=
  match splitOnChar ':' s.data with
  | [h, m, sec] =>
    if h ≠ [] ∧ h.length ≤ 2 ∧ h.all Char.isDigit ∧ digitsVal h ≤ 23 ∧
       m ≠ [] ∧ m.length ≤ 2 ∧ m.all Char.isDigit ∧ digitsVal m ≤ 59 ∧
       sec ≠ [] ∧ sec.length ≤ 2 ∧ sec.all Char.isDigit ∧ digitsVal sec ≤ 59 then
      some (digitsVal h * 3600 + digitsVal m * 60 + digitsVal sec)
    else none
  | _ => none

/-- `cutoff_time = datetime.strptime("06:01:00", "%H:%M:%S").time()`. -/
def cutoff_time : Nat := (parseTime "06:01:00").getD 0

/-- `'Y' if time_obj < cutoff_time else 'L'` (Python compares times by
their position in the day, i.e. by seconds after midnight). -/
def classifyFlag (t : Nat) : String :=
  if t < cutoff_time then "Y" else "L"

/-- Row filter: `len(row) == 12 and row[0] == 'IMSL'`. -/
def isQualifying (row : List String) : Bool :=
  row.length = 12 && row.getD 0 "" = "IMSL"

/-- `surname, first_name = row[3].rstrip(','), row[4]`. -/
def rowKey (row : List String) : PersonKey :=
  (pyRstripComma (row.getD 3 ""), row.getD 4 "")

/-- `day_str = row[6]`. -/
def rowDay (row : List String) : String := row.getD 6 ""

/-- `time_str = row[8]`. -/
def rowTime (row : List String) : String := row.getD 8 ""

/-- The classifier loop over the filtered rows, threading the `attendance`
dict; `strptime` raising on an unparsable time aborts the whole call. -/
def processRows :
    List (List String) → List (PersonKey × String × String) →
    Except Unit (List (PersonKey × String × String))
  | [], acc => .ok acc
  | row :: rest, acc =>
    match parseTime (rowTime row) with
    | none => .error ()
    | some t =>
      processRows rest (assocSet acc (rowKey row) (rowDay row, classifyFlag t))

/-- `process_pdf` on the already-extracted table: filter to qualifying rows,
then classify each into `attendance[(surname, first_name)] = (day_str, flag)`. -/
def process_pdf (table : List (List String)) :
    Except Unit (List (PersonKey × String × String)) :=
  processRows (table.filter isQualifying) []

/-! ### Weekly Merge Engine (lines 174-239) -/

/-- A document, at the level of its extracted table. -/
abbrev Doc := List (List String)

/-- The per-document update loop:
`for (surname, first_name), (day_str, flag) in attendance_for_day.items():
   if day_str in days: all_attendance[(surname, first_name)][day_str] = flag`. -/
def applyObs (t : Table) : List (PersonKey × String × String) → Table
  | [] => t
  | (k, day_str, flag) :: rest =>
    applyObs
      (match dayOfString day_str with
       | some d => setDay t k d flag
       | none => t)
      rest

/-- `for file, _ in files: attendance_for_day = process_pdf(file); ...` —
an exception from `process_pdf` propagates out of the loop. -/
def applyDocs (t : Table) : List Doc → Except Unit Table
  | [] => .ok t
  | d :: rest =>
    match process_pdf d with
    | .error e => .error e
    | .ok obs => applyDocs (applyObs t obs) rest

/-- `for name_tuple in always_include: if name_tuple not in all_attendance:
all_attendance[name_tuple] = {day: 'A' for day in days}`. -/
def rosterFill (t : Table) : List PersonKey → Table
  | [] => t
  | k :: rest => rosterFill (ensureKey t k) rest

/-- The uploaded existing weekly Excel file, as read back by pandas: the day
column headers `df_existing.columns[2:]` and, per row, the `PersonKey` from
the `Surname`/`FirstName` columns with the day-column cell values in header
order (the frame is rectangular). -/
structure ExcelTable where
  dayCols : List String
  rows : List (PersonKey × List String)

/-- `col.split(' ')[0]` — the weekday code of a possibly date-suffixed
header such as `"Mon 01/06/2025"` (`col_day_map`, lines 185-189). -/
def baseDay (col : String) : String :=
  ⟨(splitOnChar ' ' col.data).headD []⟩

/-- Inner loop of the seeding pass: for each column, assign
`all_attendance[k][col_day_map[col]] = row[col]`.  When the header's base day
is not one of the five weekday codes the Python dict stores the value under
that extra key, but such keys are never read back (the output rows are built
from the five weekday keys only), so the assignment is dropped here. -/
def seedCols (t : Table) (k : PersonKey) : List (String × String) → Table
  | [] => t
  | (col, v) :: rest =>
    seedCols
      (match dayOfString (baseDay col) with
       | some d => setDay t k d v
       | none => t)
      k rest

/-- Seeding pass over the existing table's rows (lines 191-199): initialize
the person's entry if missing, then assign each day column's value. -/
def seedRows (t : Table) (cols : List String) : List (PersonKey × List String) → Table
  | [] => t
  | (k, vals) :: rest =>
    seedRows (seedCols (ensureKey t k) k (cols.zip vals)) cols rest

/-- `all_attendance` after mapping the existing dataframe in (lines 179-199),
starting from the empty defaultdict. -/
def seedFromExcel (e : ExcelTable) : Table :=
  seedRows [] e.dayCols e.rows

/-- The initial working table of a week: mapped in from the uploaded Excel
file when one was provided (lines 174-199), else the empty defaultdict
(line 222). -/
def seedTable : Option ExcelTable → Table
  | some e => seedFromExcel e
  | none => []

/-- One week's merge: seed from the optional existing Excel table, fold the
week's documents through the classifier and update loop, then fill in the
`always_include` roster.  An exception while classifying any document
propagates. -/
def mergeWeek (existing : Option ExcelTable) (docs : List Doc)
    (roster : List PersonKey) : Except Unit Table :=
  match applyDocs (seedTable existing) docs with
  | .error e => .error e
  | .ok t => .ok (rosterFill t roster)

/-- One row of the rendered output grid: `[day_flags[day] for day in days]`. -/
def renderRow (m : DayMap) : List String :=
  [m.mon, m.tue, m.wed, m.thu, m.fri]

/-- The output dataframe (lines 214-219 and 241-245) viewed as an uploadable
existing table: the five day columns carry the given (date-suffixed) headers
and each person's row carries their five statuses in Mon..Fri order. -/
def renderTable (hs : List String) (t : Table) : ExcelTable :=
  ⟨hs, t.map (fun p => (p.1, renderRow p.2))⟩

/-- The per-week batch loop (lines 170-255): each week's tables are rendered
in turn; an exception raised while processing one week aborts the whole
script run, keeping only the weeks already rendered.  Returns the rendered
`(week key, table)` list and whether the run completed without an exception. -/
def processBatch (existing : Option ExcelTable) (roster : List PersonKey) :
    List (String × List Doc) → List (String × Table) × Bool
  | [] => ([], true)
  | (wk, docs) :: rest =>
    match mergeWeek existing docs roster with
    | .error _ => ([], false)
    | .ok t =>
      match processBatch existing roster rest with
      | (l, done) => ((wk, t) :: l, done)

/-! ### Row Grouper (`group_words_to_rows`, lines 49-61) -/

/-- A positioned word token; only the vertical position drives row grouping.
Coordinates are rationals (pdfplumber reports decimal numbers; the update
below divides by 2). -/
structure Token where
  text : String
  top : ℚ
deriving DecidableEq

/-- Python `abs` on rationals. -/
def pyAbs (q : ℚ) : ℚ := if q < 0 then -q else q

/-- The grouping loop, threading `current_row` and `last_top`:
append to the current row while the token's top is within `tolerance` of the
running mean, updating the mean as `(last_top + top) / 2`; otherwise emit the
current row and start a new one. -/
def groupAux (tolerance : ℚ) :
    List Token → List Token → Option ℚ → List (List Token)
  | [], current, _ => if current.isEmpty then [] else [current]
  | w :: ws, current, lastTop =>
    match lastTop with
    | none => groupAux tolerance ws (current ++ [w]) (some w.top)
    | some lt =>
      if pyAbs (w.top - lt) ≤ tolerance then
        groupAux tolerance ws (current ++ [w]) (some ((lt + w.top) / 2))
      else
        current :: groupAux tolerance ws [w] (some w.top)

/-- `group_words_to_rows(words, tolerance)` (the source defaults
`tolerance` to 3 at its call site). -/
def group_words_to_rows (words : List Token) (tolerance : ℚ) : List (List Token) :=
  groupAux tolerance words [] none

/-! ### Filename date extraction (`extract_date_from_filename`, lines 82-91) -/

/-- A `datetime.datetime` date (the constructor validates the ranges). -/
structure PyDate where
  year : Int
  month : Int
  day : Int
deriving DecidableEq

/-- Whether `year` is a Gregorian leap year. -/
def isLeap (y : Int) : Bool :=
  y % 4 = 0 && (y % 100 ≠ 0 || y % 400 = 0)

/-- Length of `month` in `year`. -/
def daysInMonth (y m : Int) : Int :=
  if m = 2 then (if isLeap y then 29 else 28)
  else if m = 4 ∨ m = 6 ∨ m = 9 ∨ m = 11 then 30
  else 31

/-- `datetime(year, month, day)`: `some` when the arguments form a valid
calendar date within `datetime`'s supported range, `none` when the
constructor would raise. -/
def mkPyDate (y m d : Int) : Option PyDate :=
  if 1 ≤ y ∧ y ≤ 9999 ∧ 1 ≤ m ∧ m ≤ 12 ∧ 1 ≤ d ∧ d ≤ daysInMonth y m then
    some ⟨y, m, d⟩
  else none

/-- One `try` body (lines 86-90): with `parts = name.split(sep)` of length
at least 3, `datetime(int(parts[2]), int(parts[1]), int(parts[0]))`;
`none` when fewer parts, an `int` failure or an invalid date `continue`s. -/
def tryParts (parts : List (List Char)) : Option PyDate :=
  match parts with
  | p0 :: p1 :: p2 :: _ =>
    match pyInt p2, pyInt p1, pyInt p0 with
    | some y, some m, some d => mkPyDate y m d
    | _, _, _ => none
  | _ => none

/-- `name, _ = filename.rsplit('.', 1)` raises `ValueError` when the filename
contains no `'.'` (the one-element list cannot unpack); otherwise the loop
tries `'_'` then `'.'` and the first successful parse wins, else `None`. -/
def extract_date_from_filename (filename : String) : Except Unit (Option PyDate) :=
  match splitOnChar '.' filename.data with
  | [_] => .error ()
  | groups =>
    let name := List.intercalate ['.'] groups.dropLast
    match tryParts (splitOnChar '_' name) with
    | some d => .ok (some d)
    | none => .ok (tryParts (splitOnChar '.' name))

/-! ### Basic association-list lemmas -/

@[simp] theorem keysOf_nil {α : Type} : keysOf ([] : List (PersonKey × α)) = [] := rfl

@[simp] theorem keysOf_cons {α : Type} (p : PersonKey × α) (t : List (PersonKey × α)) :
    keysOf (p :: t) = p.1 :: keysOf t := rfl

@[simp] theorem keysOf_append {α : Type} (t l : List (PersonKey × α)) :
    keysOf (t ++ l) = keysOf t ++ keysOf l := by
  simp [keysOf]

theorem alookup_isSome_iff_mem {α : Type} (t : List (PersonKey × α)) (k : PersonKey) :
    (alookup t k).isSome ↔ k ∈ keysOf t := by
  induction t with
  | nil => simp [alookup, keysOf]
  | cons p rest ih =>
    obtain ⟨k', v⟩ := p
    by_cases h : k' = k
    · subst h; simp [alookup, keysOf]
    · simp [alookup, keysOf, h, ih, Ne.symm h]

theorem alookup_append_left {α : Type} (t l : List (PersonKey × α)) (k : PersonKey)
    (m : α) (h : alookup t k = some m) : alookup (t ++ l) k = some m := by
  induction t with
  | nil => simp [alookup] at h
  | cons p rest ih =>
    obtain ⟨k', v⟩ := p
    by_cases hk : k' = k
    · subst hk; simp [alookup] at h ⊢; exact h
    · simp [alookup, hk] at h ⊢; exact ih h

theorem alookup_append_right {α : Type} (t l : List (PersonKey × α)) (k : PersonKey)
    (h : alookup t k = none) : alookup (t ++ l) k = alookup l k := by
  induction t with
  | nil => simp
  | cons p rest ih =>
    obtain ⟨k', v⟩ := p
    by_cases hk : k' = k
    · subst hk; simp [alookup] at h
    · simp [alookup, hk] at h ⊢; exact ih h

theorem alookup_eq_none_iff_not_mem {α : Type} (t : List (PersonKey × α)) (k : PersonKey) :
    alookup t k = none ↔ k ∉ keysOf t := by
  rw [← alookup_isSome_iff_mem]
  cases h : alookup t k <;> simp [h]

/-! ### `setDay` and `ensureKey` lemmas -/

theorem setDay_of_not_mem (t : Table) (k : PersonKey) (d : Day) (v : String)
    (h : alookup t k = none) : setDay t k d v = t ++ [(k, defaultDayMap.set d v)] := by
  induction t with
  | nil => simp [setDay]
  | cons p rest ih =>
    obtain ⟨k', m⟩ := p
    by_cases hk : k' = k
    · subst hk; simp [alookup] at h
    · simp [alookup, hk] at h
      simp [setDay, hk, ih h]

theorem setDay_append_of_not_mem (t : Table) (k : PersonKey) (m : DayMap)
    (d : Day) (v : String) (h : alookup t k = none) :
    setDay (t ++ [(k, m)]) k d v = t ++ [(k, m.set d v)] := by
  induction t with
  | nil => simp [setDay]
  | cons p rest ih =>
    obtain ⟨k', m'⟩ := p
    by_cases hk : k' = k
    · subst hk; simp [alookup] at h
    · simp [alookup, hk] at h
      simp [setDay, hk, ih h]

theorem alookup_setDay_self (t : Table) (k : PersonKey) (d : Day) (v : String) :
    alookup (setDay t k d v) k = some (((alookup t k).getD defaultDayMap).set d v) := by
  induction t with
  | nil => simp [setDay, alookup]
  | cons p rest ih =>
    obtain ⟨k', m⟩ := p
    by_cases hk : k' = k
    · subst hk; simp [setDay, alookup]
    · simp [setDay, alookup, hk, ih]

theorem alookup_setDay_ne (t : Table) (k k' : PersonKey) (d : Day) (v : String)
    (h : k' ≠ k) : alookup (setDay t k d v) k' = alookup t k' := by
  induction t with
  | nil => simp [setDay, alookup, Ne.symm h]
  | cons p rest ih =>
    obtain ⟨k'', m⟩ := p
    by_cases hk : k'' = k
    · subst hk; simp [setDay, alookup, Ne.symm h]
    · simp [setDay, alookup, hk, ih]

theorem keysOf_setDay (t : Table) (k : PersonKey) (d : Day) (v : String) :
    keysOf (setDay t k d v) = if k ∈ keysOf t then keysOf t else keysOf t ++ [k] := by
  induction t with
  | nil => simp [setDay]
  | cons p rest ih =>
    obtain ⟨k', m⟩ := p
    by_cases hk : k' = k
    · subst hk; simp [setDay]
    · by_cases hm : k ∈ keysOf rest <;>
        simp [setDay, hk, ih, Ne.symm hk, hm]

theorem nodup_keysOf_setDay (t : Table) (k : PersonKey) (d : Day) (v : String)
    (h : (keysOf t).Nodup) : (keysOf (setDay t k d v)).Nodup := by
  rw [keysOf_setDay]
  by_cases hm : k ∈ keysOf t
  · simp [hm, h]
  · simp [hm, List.nodup_append, h]

theorem ensureKey_of_not_mem (t : Table) (k : PersonKey)
    (h : alookup t k = none) : ensureKey t k = t ++ [(k, defaultDayMap)] := by
  simp [ensureKey, h]

theorem ensureKey_of_isSome (t : Table) (k : PersonKey)
    (h : (alookup t k).isSome) : ensureKey t k = t := by
  simp [ensureKey, h]

/-! ### `rosterFill` lemmas -/

theorem alookup_rosterFill_of_some (R : List PersonKey) (t : Table) (k : PersonKey)
    (m : DayMap) (h : alookup t k = some m) :
    alookup (rosterFill t R) k = some m := by
  induction R generalizing t with
  | nil => simpa [rosterFill] using h
  | cons k0 rest ih =>
    rw [rosterFill]
    apply ih
    unfold ensureKey
    by_cases h0 : (alookup t k0).isSome
    · simpa [h0] using h
    · simp only [h0, if_neg, Bool.false_eq_true, not_false_eq_true]
      exact alookup_append_left _ _ _ _ h

theorem isSome_alookup_rosterFill_of_isSome (R : List PersonKey) (t : Table)
    (k : PersonKey) (h : (alookup t k).isSome) :
    (alookup (rosterFill t R) k).isSome := by
  obtain ⟨m, hm⟩ := Option.isSome_iff_exists.mp h
  rw [alookup_rosterFill_of_some R t k m hm]
  rfl

theorem isSome_alookup_rosterFill_of_mem (R : List PersonKey) (t : Table)
    (k : PersonKey) (h : k ∈ R) :
    (alookup (rosterFill t R) k).isSome := by
  induction R generalizing t with
  | nil => cases h
  | cons k0 rest ih =>
    rw [rosterFill]
    rcases List.mem_cons.mp h with h0 | h0
    · subst h0
      apply isSome_alookup_rosterFill_of_isSome
      unfold ensureKey
      by_cases hs : (alookup t k).isSome
      · simp [hs]
      · simp only [hs, if_neg, Bool.false_eq_true, not_false_eq_true]
        rw [alookup_append_right _ _ _ (Option.not_isSome_iff_eq_none.mp hs)]
        simp [alookup]
    · exact ih _ h0

theorem rosterFill_eq_self (R : List PersonKey) (t : Table)
    (h : ∀ k ∈ R, (alookup t k).isSome) : rosterFill t R = t := by
  induction R with
  | nil => rfl
  | cons k0 rest ih =>
    rw [rosterFill, ensureKey_of_isSome t k0 (h k0 (List.mem_cons_self k0 rest))]
    exact ih fun k hk => h k (List.mem_cons_of_mem k0 hk)

theorem alookup_rosterFill_cases (R : List PersonKey) (t : Table) (k : PersonKey)
    (m : DayMap) (h : alookup (rosterFill t R) k = some m) :
    alookup t k = some m ∨ m = defaultDayMap := by
  induction R generalizing t with
  | nil => exact Or.inl h
  | cons k0 rest ih =>
    rw [rosterFill] at h
    rcases ih _ h with h' | h'
    · unfold ensureKey at h'
      by_cases hs : (alookup t k0).isSome
      · simp [hs] at h'; exact Or.inl h'
      · simp only [hs, if_neg, Bool.false_eq_true, not_false_eq_true] at h'
        cases ht : alookup t k with
        | some m' =>
          have h2 : some m' = some m :=
            (alookup_append_left _ _ _ _ ht).symm.trans h'
          exact Or.inl h2
        | none =>
          rw [alookup_append_right _ _ _ ht] at h'
          by_cases hk : k0 = k
          · subst hk; simp [alookup] at h'; exact Or.inr h'.symm
          · simp [alookup, hk] at h'
    · exact Or.inr h'

theorem nodup_keysOf_ensureKey (t : Table) (k : PersonKey)
    (h : (keysOf t).Nodup) : (keysOf (ensureKey t k)).Nodup := by
  unfold ensureKey
  by_cases hs : (alookup t k).isSome
  · simpa [hs]
  · have hk : k ∉ keysOf t := by
      rw [← alookup_isSome_iff_mem]; exact hs
    simp [hs, List.nodup_append, h, hk]

theorem nodup_keysOf_rosterFill (R : List PersonKey) (t : Table)
    (h : (keysOf t).Nodup) : (keysOf (rosterFill t R)).Nodup := by
  induction R generalizing t with
  | nil => exact h
  | cons k0 rest ih => exact ih _ (nodup_keysOf_ensureKey t k0 h)

/-! ### `applyObs` / `applyDocs` lemmas -/

theorem nodup_keysOf_applyObs (obs : List (PersonKey × String × String)) (t : Table)
    (h : (keysOf t).Nodup) : (keysOf (applyObs t obs)).Nodup := by
  induction obs generalizing t with
  | nil => exact h
  | cons o rest ih =>
    obtain ⟨k, ds, fl⟩ := o
    rw [applyObs]
    cases dayOfString ds with
    | none => exact ih _ h
    | some d => exact ih _ (nodup_keysOf_setDay t k d fl h)

theorem nodup_keysOf_applyDocs (docs : List Doc) (t t' : Table)
    (h : (keysOf t).Nodup) (hd : applyDocs t docs = .ok t') :
    (keysOf t').Nodup := by
  induction docs generalizing t with
  | nil => rw [applyDocs] at hd; cases hd; exact h
  | cons d rest ih =>
    rw [applyDocs] at hd
    cases hp : process_pdf d with
    | error e => rw [hp] at hd; cases hd
    | ok obs =>
      rw [hp] at hd
      exact ih _ (nodup_keysOf_applyObs obs t h) hd

theorem alookup_applyObs_of_not_mem (obs : List (PersonKey × String × String))
    (t : Table) (k : PersonKey) (h : k ∉ keysOf obs) :
    alookup (applyObs t obs) k = alookup t k := by
  induction obs generalizing t with
  | nil => rfl
  | cons o rest ih =>
    obtain ⟨k0, ds, fl⟩ := o
    simp only [keysOf_cons, List.mem_cons, not_or] at h
    rw [applyObs]
    cases dayOfString ds with
    | none => exact ih _ h.2
    | some d =>
      exact (ih _ h.2).trans (alookup_setDay_ne _ _ _ _ _ h.1)

/-! ### `assocSet` / `processRows` lemmas -/

theorem alookup_assocSet_self {α : Type} (l : List (PersonKey × α)) (k : PersonKey)
    (v : α) : alookup (assocSet l k v) k = some v := by
  induction l with
  | nil => simp [assocSet, alookup]
  | cons p rest ih =>
    obtain ⟨k', v'⟩ := p
    by_cases hk : k' = k
    · subst hk; simp [assocSet, alookup]
    · simp [assocSet, alookup, hk, ih]

theorem keysOf_assocSet {α : Type} (l : List (PersonKey × α)) (k : PersonKey)
    (v : α) :
    keysOf (assocSet l k v) = if k ∈ keysOf l then keysOf l else keysOf l ++ [k] := by
  induction l with
  | nil => simp [assocSet]
  | cons p rest ih =>
    obtain ⟨k', v'⟩ := p
    by_cases hk : k' = k
    · subst hk; simp [assocSet]
    · by_cases hm : k ∈ keysOf rest <;>
        simp [assocSet, hk, ih, Ne.symm hk, hm]

theorem nodup_keysOf_assocSet {α : Type} (l : List (PersonKey × α)) (k : PersonKey)
    (v : α) (h : (keysOf l).Nodup) : (keysOf (assocSet l k v)).Nodup := by
  rw [keysOf_assocSet]
  by_cases hm : k ∈ keysOf l
  · simp [hm, h]
  · simp [hm, List.nodup_append, h]

theorem nodup_keysOf_processRows (rows : List (List String))
    (acc l : List (PersonKey × String × String))
    (h : (keysOf acc).Nodup) (hp : processRows rows acc = .ok l) :
    (keysOf l).Nodup := by
  induction rows generalizing acc with
  | nil => rw [processRows] at hp; cases hp; exact h
  | cons row rest ih =>
    rw [processRows] at hp
    cases ht : parseTime (rowTime row) with
    | none => rw [ht] at hp; cases hp
    | some t =>
      rw [ht] at hp
      exact ih _ (nodup_keysOf_assocSet _ _ _ h) hp

theorem nodup_keysOf_process_pdf (d : Doc) (l : List (PersonKey × String × String))
    (h : process_pdf d = .ok l) : (keysOf l).Nodup :=
  nodup_keysOf_processRows _ _ _ (by simp) h

theorem processRows_append (xs ys : List (List String))
    (acc : List (PersonKey × String × String)) :
    processRows (xs ++ ys) acc =
      match processRows xs acc with
      | .error e => .error e
      | .ok l => processRows ys l := by
  induction xs generalizing acc with
  | nil => simp [processRows]
  | cons row rest ih =>
    rw [List.cons_append, processRows, processRows]
    cases parseTime (rowTime row) with
    | none => rfl
    | some t => exact ih _

/-! ### `DayMap` get/set lemmas -/

theorem DayMap.get_set_self (m : DayMap) (d : Day) (v : String) :
    (m.set d v).get d = v := by
  cases d <;> rfl

theorem DayMap.set_all_fields (m : DayMap) :
    ((((defaultDayMap.set .mon m.mon).set .tue m.tue).set .wed
        m.wed).set .thu m.thu).set .fri m.fri = m := by
  cases m; rfl

/-! ### Observation lookup through `applyObs` (for overwrite ordering) -/

theorem alookup_applyObs_of_alookup (obs : List (PersonKey × String × String))
    (t : Table) (k : PersonKey) (ds fl : String) (d : Day)
    (hnd : (keysOf obs).Nodup) (hl : alookup obs k = some (ds, fl))
    (hd : dayOfString ds = some d) :
    ∃ m, alookup (applyObs t obs) k = some m ∧ m.get d = fl := by
  induction obs generalizing t with
  | nil => simp [alookup] at hl
  | cons o rest ih =>
    obtain ⟨k0, ds0, fl0⟩ := o
    simp only [keysOf_cons, List.nodup_cons] at hnd
    by_cases hk : k0 = k
    · subst hk
      simp only [alookup, if_pos, Option.some.injEq, Prod.mk.injEq] at hl
      obtain ⟨hds, hfl⟩ := hl
      rw [applyObs, hds, hd]
      refine ⟨(((alookup t k0).getD defaultDayMap).set d fl0), ?_, ?_⟩
      · rw [alookup_applyObs_of_not_mem rest _ k0 hnd.1]
        exact alookup_setDay_self t k0 d fl0
      · rw [DayMap.get_set_self]; exact hfl
    · simp only [alookup, hk, if_neg, not_false_eq_true] at hl
      rw [applyObs]
      cases dayOfString ds0 with
      | none => exact ih _ hnd.2 hl
      | some d0 => exact ih _ hnd.2 hl

/-! ### Seeding a rendered table reconstructs it -/

theorem seedCols_render (t : Table) (k : PersonKey) (m : DayMap)
    (hs : List String) (hh : hs.map baseDay = days)
    (hnm : alookup t k = none) :
    seedCols (t ++ [(k, defaultDayMap)]) k (hs.zip (renderRow m)) = t ++ [(k, m)] := by
  rcases hs with _ | ⟨h0, _ | ⟨h1, _ | ⟨h2, _ | ⟨h3, _ | ⟨h4, _ | ⟨h5, rest⟩⟩⟩⟩⟩⟩ <;>
    simp [days] at hh
  obtain ⟨e0, e1, e2, e3, e4⟩ := hh
  have d0 : dayOfString (baseDay h0) = some .mon := by rw [e0]; rfl
  have d1 : dayOfString (baseDay h1) = some .tue := by rw [e1]; rfl
  have d2 : dayOfString (baseDay h2) = some .wed := by rw [e2]; rfl
  have d3 : dayOfString (baseDay h3) = some .thu := by rw [e3]; rfl
  have d4 : dayOfString (baseDay h4) = some .fri := by rw [e4]; rfl
  show seedCols _ _ ((h0, m.mon) :: (h1, m.tue) :: (h2, m.wed) ::
    (h3, m.thu) :: (h4, m.fri) :: []) = _
  rw [seedCols, d0, seedCols, d1, seedCols, d2, seedCols, d3, seedCols, d4, seedCols]
  dsimp only
  rw [setDay_append_of_not_mem _ _ _ _ _ hnm, setDay_append_of_not_mem _ _ _ _ _ hnm,
      setDay_append_of_not_mem _ _ _ _ _ hnm, setDay_append_of_not_mem _ _ _ _ _ hnm,
      setDay_append_of_not_mem _ _ _ _ _ hnm]
  rw [DayMap.set_all_fields]

theorem seedRows_render (hs : List String) (hh : hs.map baseDay = days)
    (rest : Table) (acc : Table)
    (hnd : (keysOf acc ++ keysOf rest).Nodup) :
    seedRows acc hs (rest.map (fun p => (p.1, renderRow p.2))) = acc ++ rest := by
  induction rest generalizing acc with
  | nil => simp [seedRows]
  | cons p rest' ih =>
    obtain ⟨k, m⟩ := p
    simp only [keysOf_cons] at hnd
    have hk : k ∉ keysOf acc := fun hmem =>
      (List.nodup_append.mp hnd).2.2 hmem (List.mem_cons_self k (keysOf rest'))
    have hnone : alookup acc k = none := (alookup_eq_none_iff_not_mem acc k).mpr hk
    rw [List.map_cons, seedRows, ensureKey_of_not_mem acc k hnone,
        seedCols_render acc k m hs hh hnone]
    have hnd' : (keysOf (acc ++ [(k, m)]) ++ keysOf rest').Nodup := by
      simp only [keysOf_append, keysOf_cons, keysOf_nil, List.append_assoc,
        List.cons_append, List.nil_append]
      simpa [List.append_assoc] using hnd
    rw [ih _ hnd', List.append_assoc, List.singleton_append]

theorem seedFromExcel_render (hs : List String) (hh : hs.map baseDay = days)
    (t : Table) (hnd : (keysOf t).Nodup) :
    seedFromExcel (renderTable hs t) = t := by
  have := seedRows_render hs hh t [] (by simpa using hnd)
  simpa [seedFromExcel, renderTable] using this

/-! ### `mergeWeek` success decomposition -/

theorem mergeWeek_ok_elim (e : Option ExcelTable) (docs : List Doc)
    (R : List PersonKey) (T : Table) (h : mergeWeek e docs R = .ok T) :
    ∃ t1, applyDocs (seedTable e) docs = .ok t1 ∧ T = rosterFill t1 R := by
  unfold mergeWeek at h
  cases ha : applyDocs (seedTable e) docs with
  | error err => rw [ha] at h; exact Except.noConfusion h
  | ok t1 =>
    rw [ha] at h
    have h2 : (Except.ok (rosterFill t1 R) : Except Unit Table) = .ok T := h
    injection h2 with h3
    exact ⟨t1, rfl, h3.symm⟩

/-! ### Claim theorems -/

/-- C1: merging is idempotent.  For every document sequence `docs` and roster
snapshot `R`, if `merge(None, docs, R)` produces the weekly table `T`, then
re-merging `T` — round-tripped through day-column headers whose first
space-separated token is the weekday code, as the date-suffixed output headers
are — with no new documents and the same roster `R` yields `T` again. -/
theorem merge_remerge_idempotent (docs : List Doc) (R : List PersonKey)
    (T : Table) (hs : List String)
    (hT : mergeWeek none docs R = .ok T) (hh : hs.map baseDay = days) :
    mergeWeek (some (renderTable hs T)) [] R = .ok T := by
  obtain ⟨t1, h1, h2⟩ := mergeWeek_ok_elim none docs R T hT
  have hnd1 : (keysOf t1).Nodup :=
    nodup_keysOf_applyDocs docs (seedTable none) t1 (by simp [seedTable]) h1
  have hndT : (keysOf T).Nodup := by
    rw [h2]; exact nodup_keysOf_rosterFill R t1 hnd1
  have hR : ∀ k ∈ R, (alookup T k).isSome := by
    intro k hk
    rw [h2]
    exact isSome_alookup_rosterFill_of_mem R t1 k hk
  unfold mergeWeek
  rw [show seedTable (some (renderTable hs T)) = seedFromExcel (renderTable hs T)
        from rfl,
      seedFromExcel_render hs hh T hndT, applyDocs]
  dsimp only
  rw [rosterFill_eq_self R T hR]

/-- Witness for C1: a one-person roster, no documents, and date-suffixed
headers round-trip to the same table. -/
theorem merge_remerge_idempotent_witness :
    mergeWeek none [] [("Doe", "Jane")] = .ok [(("Doe", "Jane"), defaultDayMap)] ∧
    (["Mon 01/06/2025", "Tue 02/06/2025", "Wed 03/06/2025", "Thu 04/06/2025",
      "Fri 05/06/2025"].map baseDay = days) ∧
    mergeWeek
      (some (renderTable
        ["Mon 01/06/2025", "Tue 02/06/2025", "Wed 03/06/2025", "Thu 04/06/2025",
         "Fri 05/06/2025"]
        [(("Doe", "Jane"), defaultDayMap)]))
      [] [("Doe", "Jane")] = .ok [(("Doe", "Jane"), defaultDayMap)] :=
  ⟨rfl, rfl,
    merge_remerge_idempotent [] [("Doe", "Jane")] [(("Doe", "Jane"), defaultDayMap)]
      ["Mon 01/06/2025", "Tue 02/06/2025", "Wed 03/06/2025", "Thu 04/06/2025",
       "Fri 05/06/2025"] rfl rfl⟩

/-- C2: roster completeness.  Every `PersonKey` of the roster snapshot appears
as a row of any successfully merged weekly table (its entry is a total
five-day status map by construction), and with no existing table and no
documents the entry is the all-`'A'` default. -/
theorem roster_completeness (e : Option ExcelTable) (docs : List Doc)
    (R : List PersonKey) (k : PersonKey) (T : Table)
    (hk : k ∈ R) (hm : mergeWeek e docs R = .ok T) :
    (∃ m, alookup T k = some m) ∧
      (e = none → docs = [] → alookup T k = some defaultDayMap) := by
  obtain ⟨t1, h1, h2⟩ := mergeWeek_ok_elim e docs R T hm
  constructor
  · rw [h2]
    exact Option.isSome_iff_exists.mp (isSome_alookup_rosterFill_of_mem R t1 k hk)
  · intro he hd
    subst he; subst hd
    rw [applyDocs] at h1
    have h1' : (Except.ok (seedTable none) : Except Unit Table) = .ok t1 := h1
    injection h1' with h1''
    have ht1 : t1 = [] := h1''.symm
    rw [ht1] at h2
    obtain ⟨m, hm2⟩ := Option.isSome_iff_exists.mp
      (isSome_alookup_rosterFill_of_mem R [] k hk)
    rcases alookup_rosterFill_cases R [] k m hm2 with hc | hc
    · simp [alookup] at hc
    · rw [h2, hm2, hc]

/-- Witness for C2: a roster member with no documents gets the default row. -/
theorem roster_completeness_witness :
    mergeWeek none [] [("Doe", "Jane")] = .ok [(("Doe", "Jane"), defaultDayMap)] ∧
    ((∃ m, alookup [(("Doe", "Jane"), defaultDayMap)] ("Doe", "Jane") = some m) ∧
      ((none : Option ExcelTable) = none → ([] : List Doc) = [] →
        alookup [(("Doe", "Jane"), defaultDayMap)] ("Doe", "Jane")
          = some defaultDayMap)) :=
  ⟨rfl, roster_completeness none [] [("Doe", "Jane")] ("Doe", "Jane")
    [(("Doe", "Jane"), defaultDayMap)] (List.mem_singleton.mpr rfl) rfl⟩

/-- C3: non-destructive roster fill.  If `P` already has an entry in the
working table seeded from the existing Excel table and `P` is in the roster,
merging with no documents leaves `P`'s five-day status map unchanged. -/
theorem roster_fill_frame (E : ExcelTable) (R : List PersonKey) (P : PersonKey)
    (m : DayMap) (T : Table) (hP : P ∈ R)
    (hprior : alookup (seedFromExcel E) P = some m)
    (hm : mergeWeek (some E) [] R = .ok T) :
    alookup T P = some m := by
  obtain ⟨t1, h1, h2⟩ := mergeWeek_ok_elim (some E) [] R T hm
  rw [applyDocs] at h1
  have h1' : (Except.ok (seedTable (some E)) : Except Unit Table) = .ok t1 := h1
  injection h1' with h1''
  rw [h2, ← h1'']
  exact alookup_rosterFill_of_some R (seedTable (some E)) P m hprior

/-- Witness for C3: a non-default existing row survives a roster-only merge. -/
theorem roster_fill_frame_witness :
    (("Smith", "John") ∈ [(("Smith", "John") : PersonKey)]) ∧
    alookup
      (seedFromExcel ⟨["Mon", "Tue", "Wed", "Thu", "Fri"],
        [(("Smith", "John"), ["Y", "L", "A", "Y", "L"])]⟩)
      ("Smith", "John") = some ⟨"Y", "L", "A", "Y", "L"⟩ ∧
    mergeWeek
      (some ⟨["Mon", "Tue", "Wed", "Thu", "Fri"],
        [(("Smith", "John"), ["Y", "L", "A", "Y", "L"])]⟩)
      [] [("Smith", "John")]
      = .ok [(("Smith", "John"), ⟨"Y", "L", "A", "Y", "L"⟩)] ∧
    alookup [(("Smith", "John"), (⟨"Y", "L", "A", "Y", "L"⟩ : DayMap))]
      ("Smith", "John") = some ⟨"Y", "L", "A", "Y", "L"⟩ :=
  ⟨List.mem_singleton.mpr rfl, rfl, rfl,
    roster_fill_frame
      ⟨["Mon", "Tue", "Wed", "Thu", "Fri"],
        [(("Smith", "John"), ["Y", "L", "A", "Y", "L"])]⟩
      [("Smith", "John")] ("Smith", "John") ⟨"Y", "L", "A", "Y", "L"⟩
      [(("Smith", "John"), ⟨"Y", "L", "A", "Y", "L"⟩)]
      (List.mem_singleton.mpr rfl) rfl rfl⟩

/-- C4: later observation wins.  (a) Within one document, appending a
qualifying row re-assigns that person's `(weekday, status)` pair in the
classifier output by simple overwrite, so the later row determines the pair;
(b) across two documents `D1` then `D2` of a week, if `D2`'s classification
holds `(k, (ds, fl))` with `ds` a recognized weekday, the merged table holds
`fl` for `k` on that weekday. -/
theorem later_observation_wins :
    (∀ (tbl : List (List String)) (r : List String)
       (l : List (PersonKey × String × String)) (t : Nat),
       process_pdf tbl = .ok l → isQualifying r = true →
       parseTime (rowTime r) = some t →
       process_pdf (tbl ++ [r])
           = .ok (assocSet l (rowKey r) (rowDay r, classifyFlag t)) ∧
         alookup (assocSet l (rowKey r) (rowDay r, classifyFlag t)) (rowKey r)
           = some (rowDay r, classifyFlag t)) ∧
    (∀ (e : Option ExcelTable) (d1 d2 : Doc) (R : List PersonKey) (T : Table)
       (k : PersonKey) (ds fl : String) (d : Day)
       (l2 : List (PersonKey × String × String)),
       process_pdf d2 = .ok l2 → alookup l2 k = some (ds, fl) →
       dayOfString ds = some d → mergeWeek e [d1, d2] R = .ok T →
       ∃ m, alookup T k = some m ∧ m.get d = fl) := by
  constructor
  · intro tbl r l t hl hq ht
    constructor
    · unfold process_pdf
      rw [List.filter_append, processRows_append]
      unfold process_pdf at hl
      rw [hl]
      show processRows (List.filter isQualifying [r]) l = _
      rw [show List.filter isQualifying [r] = [r] by simp [hq]]
      rw [processRows, ht]
      rfl
    · exact alookup_assocSet_self l (rowKey r) (rowDay r, classifyFlag t)
  · intro e d1 d2 R T k ds fl d l2 hd2 hl hd hm
    obtain ⟨t1, h1, h2⟩ := mergeWeek_ok_elim e [d1, d2] R T hm
    rw [applyDocs] at h1
    cases hp1 : process_pdf d1 with
    | error e1 => rw [hp1] at h1; exact Except.noConfusion h1
    | ok obs1 =>
      rw [hp1] at h1
      have h1a : applyDocs (applyObs (seedTable e) obs1) [d2] = .ok t1 := h1
      rw [applyDocs, hd2] at h1a
      have h1b : (Except.ok (applyObs (applyObs (seedTable e) obs1) l2)
          : Except Unit Table) = .ok t1 := h1a
      injection h1b with ht1
      obtain ⟨m, hm1, hm2⟩ := alookup_applyObs_of_alookup l2
        (applyObs (seedTable e) obs1) k ds fl d
        (nodup_keysOf_process_pdf d2 l2 hd2) hl hd
      refine ⟨m, ?_, hm2⟩
      rw [h2, ← ht1]
      exact alookup_rosterFill_of_some R _ k m hm1

/-- Witness for C4: a duplicate punch inside one document, and a later
document overriding an earlier one for the same person and weekday. -/
theorem later_observation_wins_witness :
    (process_pdf
        ([["IMSL", "", "", "Smith,", "John", "", "Mon", "", "06:30:00", "", "", ""]] ++
         [["IMSL", "", "", "Smith,", "John", "", "Mon", "", "05:58:00", "", "", ""]])
      = .ok [(("Smith", "John"), ("Mon", "Y"))]) ∧
    (∃ m, alookup
        (mergeWeek none
          [[["IMSL", "", "", "Smith,", "John", "", "Mon", "", "06:30:00", "", "", ""]],
           [["IMSL", "", "", "Smith,", "John", "", "Mon", "", "05:58:00", "", "", ""]]]
          []).toOption.iget ("Smith", "John") = some m ∧ m.get .mon = "Y") := by
  constructor
  · have h := (later_observation_wins.1
      [["IMSL", "", "", "Smith,", "John", "", "Mon", "", "06:30:00", "", "", ""]]
      ["IMSL", "", "", "Smith,", "John", "", "Mon", "", "05:58:00", "", "", ""]
      [(("Smith", "John"), ("Mon", "L"))] 21480 rfl rfl rfl).1
    exact h
  · exact later_observation_wins.2 none
      [["IMSL", "", "", "Smith,", "John", "", "Mon", "", "06:30:00", "", "", ""]]
      [["IMSL", "", "", "Smith,", "John", "", "Mon", "", "05:58:00", "", "", ""]]
      [] [(("Smith", "John"), ⟨"Y", "A", "A", "A", "A"⟩)]
      ("Smith", "John") "Mon" "Y" .mon
      [(("Smith", "John"), ("Mon", "Y"))] rfl rfl rfl rfl

/-- C5: cutoff boundary.  The classifier compares the parsed clock time with
the fixed cutoff `06:01:00` (21660 seconds), emits `"Y"` exactly when the time
is strictly earlier, otherwise `"L"` (never `"A"` or `"H"`); `06:01:00`
itself classifies `"L"` and `06:00:59` classifies `"Y"`. -/
theorem cutoff_boundary :
    cutoff_time = 21660 ∧
    (∀ t : Nat, classifyFlag t = "Y" ↔ t < cutoff_time) ∧
    (∀ t : Nat, classifyFlag t = "Y" ∨ classifyFlag t = "L") ∧
    (parseTime "06:01:00" = some 21660 ∧ classifyFlag 21660 = "L") ∧
    (parseTime "06:00:59" = some 21659 ∧ classifyFlag 21659 = "Y") := by
  refine ⟨rfl, ?_, ?_, ⟨rfl, rfl⟩, ⟨rfl, rfl⟩⟩
  · intro t
    rcases Nat.lt_or_ge t cutoff_time with h | h
    · simp [classifyFlag, h]
    · simp [classifyFlag, Nat.not_lt.mpr h, Nat.not_lt.mpr, h]
  · intro t
    rcases Nat.lt_or_ge t cutoff_time with h | h
    · exact Or.inl (by simp [classifyFlag, h])
    · exact Or.inr (by simp [classifyFlag, Nat.not_lt.mpr h])

/-- C6 counterexample: for the single qualifying row with unrecognized weekday
cell `"D"`, the classifier does output `(Smith,John) -> ("D","Y")` and the
merge discards the observation, but with an empty existing table and an empty
roster the resulting weekly table is empty — it does not show `Smith, John`
with five `'A'`s, contradicting the claim. -/
theorem unrecognized_day_counterexample :
    process_pdf [["IMSL", "", "", "Smith,", "John", "", "D", "", "05:58:00", "", "", ""]]
      = .ok [(("Smith", "John"), ("D", "Y"))] ∧
    mergeWeek none
      [[["IMSL", "", "", "Smith,", "John", "", "D", "", "05:58:00", "", "", ""]]] []
      = .ok [] ∧
    mergeWeek none
      [[["IMSL", "", "", "Smith,", "John", "", "D", "", "05:58:00", "", "", ""]]] []
      ≠ .ok [(("Smith", "John"), defaultDayMap)] := by
  refine ⟨rfl, rfl, fun h => ?_⟩
  have h2 : (Except.ok ([] : Table) : Except Unit Table)
      = .ok [(("Smith", "John"), defaultDayMap)] := h
  injection h2 with h3
  exact List.noConfusion h3

/-- C6 amended: the classifier computes `(Smith,John) -> ("D","Y")`; since
`"D"` is not a recognized weekday the merge discards the observation, and with
an empty existing table and empty roster the resulting weekly table is empty,
so `Smith, John` does not appear at all. -/
theorem unrecognized_day_amended :
    process_pdf [["IMSL", "", "", "Smith,", "John", "", "D", "", "05:58:00", "", "", ""]]
      = .ok [(("Smith", "John"), ("D", "Y"))] ∧
    mergeWeek none
      [[["IMSL", "", "", "Smith,", "John", "", "D", "", "05:58:00", "", "", ""]]] []
      = .ok [] ∧
    alookup ([] : Table) ("Smith", "John") = none :=
  ⟨rfl, rfl, rfl⟩

/-- C9: the two-point running-mean row grouping puts tops `[10, 11, 12, 50]`
with tolerance 3 into exactly two rows — the first three tokens together and
the last alone — and empty input yields empty output. -/
theorem row_grouping_example :
    group_words_to_rows [⟨"a", 10⟩, ⟨"b", 11⟩, ⟨"c", 12⟩, ⟨"d", 50⟩] 3
      = [[⟨"a", 10⟩, ⟨"b", 11⟩, ⟨"c", 12⟩], [⟨"d", 50⟩]] ∧
    group_words_to_rows [] 3 = [] := by
  constructor
  · show groupAux 3 _ [] none = _
    norm_num [groupAux, pyAbs]
  · rfl

/-- Auxiliary: splitting on a character absent from the list yields the whole
list as the single piece. -/
theorem splitOnChar_eq_singleton (sep : Char) (l : List Char)
    (h : ∀ c ∈ l, c ≠ sep) : splitOnChar sep l = [l] := by
  induction l with
  | nil => rfl
  | cons c cs ih =>
    rw [splitOnChar, ih (fun c' hc' => h c' (List.mem_cons_of_mem c hc'))]
    simp [h c (List.mem_cons_self c cs)]

/-- C10: a filename with no `'.'` makes `extract_date_from_filename` raise
(the two-element unpack of `rsplit('.', 1)` fails on the one-element list)
instead of returning `None`. -/
theorem missing_dot_raises (filename : String)
    (h : ∀ c ∈ filename.data, c ≠ '.') :
    extract_date_from_filename filename = .error () := by
  unfold extract_date_from_filename
  rw [splitOnChar_eq_singleton '.' filename.data h]

/-- Witness for C10: a dotless upload name crashes date extraction. -/
theorem missing_dot_raises_witness :
    (∀ c ∈ "attendance_week1".data, c ≠ '.') ∧
    extract_date_from_filename "attendance_week1" = .error () :=
  ⟨by decide, missing_dot_raises "attendance_week1" (by decide)⟩

/-! ### C7: filename date extraction, claim wording vs source -/

/-- The per-split parse exactly as claim C7 words it:
`(day, month, year) = (parts[2], parts[1], parts[0])`, i.e. the date is built
with year `parts[0]`, month `parts[1]`, day `parts[2]`. -/
def trySpecParts (parts : List (List Char)) : Option PyDate :=
  match parts with
  | p0 :: p1 :: p2 :: _ =>
    match pyInt p0, pyInt p1, pyInt p2 with
    | some y, some m, some d => mkPyDate y m d
    | _, _, _ => none
  | _ => none

/-- The date-extraction algorithm as claim C7 describes it (with the source's
extension strip kept, since the claim speaks of the same function): split on
`'_'` then `'.'` into at least 3 parts, parse
`(day, month, year) = (parts[2], parts[1], parts[0])`, first valid date wins. -/
def extractDateClaimed (filename : String) : Except Unit (Option PyDate) :=
  match splitOnChar '.' filename.data with
  | [_] => .error ()
  | groups =>
    let name := List.intercalate ['.'] groups.dropLast
    match trySpecParts (splitOnChar '_' name) with
    | some d => .ok (some d)
    | none => .ok (trySpecParts (splitOnChar '.' name))

/-- C7 counterexample: on `"01_06_2025.pdf"` the source parses year 2025,
month 6, day 1 — `(year, month, day) = (parts[2], parts[1], parts[0])` —
whereas the claim's reading `(day, month, year) = (parts[2], parts[1],
parts[0])` (day 2025 of year 1) is no valid date and yields `None`. -/
theorem date_order_counterexample :
    extract_date_from_filename "01_06_2025.pdf" = .ok (some ⟨2025, 6, 1⟩) ∧
    extractDateClaimed "01_06_2025.pdf" = .ok none ∧
    (Except.ok (some (⟨2025, 6, 1⟩ : PyDate)) : Except Unit (Option PyDate))
      ≠ .ok none := by
  refine ⟨rfl, rfl, fun h => ?_⟩
  injection h with h2
  exact Option.noConfusion h2

/-- First split whose parts parse as a valid calendar date, in the source's
`(year, month, day) = (parts[2], parts[1], parts[0])` reading. -/
def firstValid : List (List (List Char)) → Option PyDate
  | [] => none
  | parts :: rest =>
    match tryParts parts with
    | some d => some d
    | none => firstValid rest

/-- Modelled from the amended claim wording: after stripping the extension at
the last `'.'` (raising when there is none), the name is split on `'_'` then
on `'.'` into at least 3 parts and parsed as
`(year, month, day) = (parts[2], parts[1], parts[0])` as integers; the first
split that parses as a valid calendar date wins, otherwise the document has no
date. -/
def extractDateAmendedSpec (filename : String) : Except Unit (Option PyDate) :=
  match splitOnChar '.' filename.data with
  | [_] => .error ()
  | groups =>
    let name := List.intercalate ['.'] groups.dropLast
    .ok (firstValid [splitOnChar '_' name, splitOnChar '.' name])

theorem firstValid_pair (a b : List (List Char)) :
    firstValid [a, b]
      = match tryParts a with
        | some d => some d
        | none => tryParts b := by
  rw [firstValid]
  cases tryParts a with
  | some d => rfl
  | none =>
    rw [firstValid]
    cases tryParts b with
    | some d => rfl
    | none => rfl

/-- C7 amended: the source's date extraction agrees, on every filename, with
the amended wording — `(year, month, day) = (parts[2], parts[1], parts[0])`,
first valid split wins, trying `'_'` before `'.'`. -/
theorem date_extraction_amended (filename : String) :
    extract_date_from_filename filename = extractDateAmendedSpec filename := by
  unfold extract_date_from_filename extractDateAmendedSpec
  cases hg : splitOnChar '.' filename.data with
  | nil => rfl
  | cons g gs =>
    cases gs with
    | nil => rfl
    | cons g2 gs2 =>
      dsimp only
      rw [firstValid_pair]
      cases tryParts (splitOnChar '_'
          (List.intercalate ['.'] ((g :: g2 :: gs2).dropLast))) with
      | some d => rfl
      | none => rfl

/-! ### C8: a malformed time aborts the whole run -/

theorem processRows_error (rows : List (List String)) (row : List String)
    (acc : List (PersonKey × String × String)) (hmem : row ∈ rows)
    (hbad : parseTime (rowTime row) = none) :
    processRows rows acc = .error () := by
  induction rows generalizing acc with
  | nil => cases hmem
  | cons r rest ih =>
    rw [processRows]
    cases hr : parseTime (rowTime r) with
    | none => rfl
    | some t =>
      rcases List.mem_cons.mp hmem with he | he
      · subst he; rw [hr] at hbad; exact Option.noConfusion hbad
      · exact ih _ he

/-- A qualifying row with an unparsable time makes `process_pdf` raise. -/
theorem process_pdf_error (d : Doc) (row : List String) (hmem : row ∈ d)
    (hq : isQualifying row = true) (hbad : parseTime (rowTime row) = none) :
    process_pdf d = .error () :=
  processRows_error _ row [] (List.mem_filter.mpr ⟨hmem, hq⟩) hbad

theorem applyDocs_error (docs : List Doc) (d : Doc) (t : Table)
    (hmem : d ∈ docs) (herr : process_pdf d = .error ()) :
    applyDocs t docs = .error () := by
  induction docs generalizing t with
  | nil => cases hmem
  | cons d0 rest ih =>
    rw [applyDocs]
    cases hp : process_pdf d0 with
    | error e => rfl
    | ok obs =>
      rcases List.mem_cons.mp hmem with he | he
      · subst he; rw [hp] at herr; exact Except.noConfusion herr
      · exact ih _ he

/-- A document that fails classification makes the week's merge raise. -/
theorem mergeWeek_error (e : Option ExcelTable) (docs : List Doc)
    (R : List PersonKey) (d : Doc) (hmem : d ∈ docs)
    (herr : process_pdf d = .error ()) :
    mergeWeek e docs R = .error () := by
  unfold mergeWeek
  rw [applyDocs_error docs d _ hmem herr]

/-- C8 counterexample: a batch of two weeks where the first week's first
document has a qualifying row with unparsable time `"bad-time"` produces NO
tables at all — the sibling good document of the same week and the entire
second week are not processed — even though the good document alone would
merge fine.  This contradicts the claim that the failure does not abort the
batch and that the other documents still reach the final tables. -/
theorem malformed_time_counterexample :
    processBatch none []
      [("2025-W23",
        [[["IMSL", "", "", "Jones,", "Amy", "", "Mon", "", "bad-time", "", "", ""]],
         [["IMSL", "", "", "Smith,", "John", "", "Tue", "", "05:58:00", "", "", ""]]]),
       ("2025-W24",
        [[["IMSL", "", "", "Smith,", "John", "", "Tue", "", "05:58:00", "", "", ""]]])]
      = ([], false) ∧
    mergeWeek none
      [[["IMSL", "", "", "Smith,", "John", "", "Tue", "", "05:58:00", "", "", ""]]] []
      = .ok [(("Smith", "John"), ⟨"A", "Y", "A", "A", "A"⟩)] :=
  ⟨rfl, rfl⟩

/-- C8 amended: a `TableRow` that passes the 12-cell/`'IMSL'` filter but has
an unparsable time string aborts classification of the containing document,
and the exception propagates out of the per-week loop: the whole batch run
aborts with no tables produced from the week containing that document onward
(only weeks iterated before it keep their rendered tables). -/
theorem malformed_time_aborts_batch (doc : Doc) (row : List String)
    (hmem : row ∈ doc) (hq : isQualifying row = true)
    (hbad : parseTime (rowTime row) = none) :
    process_pdf doc = .error () ∧
    ∀ (e : Option ExcelTable) (R : List PersonKey) (wk : String)
      (docs : List Doc) (rest : List (String × List Doc)), doc ∈ docs →
      processBatch e R ((wk, docs) :: rest) = ([], false) := by
  have herr := process_pdf_error doc row hmem hq hbad
  refine ⟨herr, fun e R wk docs rest hd => ?_⟩
  rw [processBatch, mergeWeek_error e docs R doc hd herr]

/-- Witness for C8's amended theorem: the concrete malformed document. -/
theorem malformed_time_aborts_batch_witness :
    (["IMSL", "", "", "Jones,", "Amy", "", "Mon", "", "bad-time", "", "", ""] ∈
      [["IMSL", "", "", "Jones,", "Amy", "", "Mon", "", "bad-time", "", "", ""]]) ∧
    isQualifying ["IMSL", "", "", "Jones,", "Amy", "", "Mon", "", "bad-time", "", "", ""]
      = true ∧
    parseTime "bad-time" = none ∧
    process_pdf [["IMSL", "", "", "Jones,", "Amy", "", "Mon", "", "bad-time", "", "", ""]]
      = .error () ∧
    processBatch none []
      [("2025-W23",
        [[["IMSL", "", "", "Jones,", "Amy", "", "Mon", "", "bad-time", "", "", ""]]])]
      = ([], false) := by
  have h := malformed_time_aborts_batch
    [["IMSL", "", "", "Jones,", "Amy", "", "Mon", "", "bad-time", "", "", ""]]
    ["IMSL", "", "", "Jones,", "Amy", "", "Mon", "", "bad-time", "", "", ""]
    (List.mem_singleton.mpr rfl) rfl rfl
  exact ⟨List.mem_singleton.mpr rfl, rfl, rfl, h.1,
    h.2 none [] "2025-W23"
      [[["IMSL", "", "", "Jones,", "Amy", "", "Mon", "", "bad-time", "", "", ""]]] []
      (List.mem_singleton.mpr rfl)⟩
